import Mathlib

/-!
Verification of the TanStack chat relay and its browser stream consumer.

The development shallowly embeds three source files:
* `src/routes/demo/api.tanchat.ts` — the POST relay endpoint (message
  filtering, API-key check, error classification, and the transformation of
  upstream events into newline-delimited JSON);
* the chat client component (two copies in the repository), in particular
  `handleSubmit`: the line-reassembly buffer over the streamed response body,
  the accumulation of text deltas into the pending assistant message, the
  end-of-stream commit, and the loading-flag submit guard.

JavaScript strings are modelled as `List Char`.  `TextDecoder` with
`stream: true` turns any byte chunking of valid UTF-8 into a corresponding
text chunking, so read chunks are modelled as `List Char` values whose
concatenation is the decoded response body.
-/

namespace TanChat

/-! ### Character-list models of the JavaScript string operations used -/

/-- Model of `String.prototype.startsWith`: `beginsWith s pat` is true when
`pat` is a prefix of `s`. -/
def beginsWith : List Char → List Char → Bool
  | _, [] => true
  | [], _ :: _ => false
  | c :: cs, p :: ps => c = p && beginsWith cs ps

/-- Model of `String.prototype.includes`: `containsSeq s pat` is true when
`pat` occurs contiguously somewhere in `s`. -/
def containsSeq : List Char → List Char → Bool
  | [], pat => beginsWith [] pat
  | c :: cs, pat => beginsWith (c :: cs) pat || containsSeq cs pat

/-- `dropSeq s pat` removes the prefix `pat` from `s`, failing when `pat` is
not a prefix. -/
def dropSeq : List Char → List Char → Option (List Char)
  | cs, [] => some cs
  | [], _ :: _ => none
  | c :: cs, p :: ps => if c = p then dropSeq cs ps else none

/-- Model of the truthiness test `s.trim() !== ''` being FALSE: the string
consists only of whitespace. -/
def isBlank (cs : List Char) : Bool := cs.all Char.isWhitespace

/-- Model of `String.prototype.trim`: whitespace removed from both ends. -/
def trimChars (cs : List Char) : List Char :=
  ((cs.dropWhile Char.isWhitespace).reverse.dropWhile Char.isWhitespace).reverse

/-- Model of `s.split('\n')`: the list of `'\n'`-separated pieces, in order.
Always non-empty; no piece contains `'\n'`. -/
def splitNl : List Char → List (List Char)
  | [] => [[]]
  | c :: rest =>
    if c = '\n' then [] :: splitNl rest
    else (c :: (splitNl rest).headD []) :: (splitNl rest).tail

/-- All pieces of `lines` except the last: what remains of `lines` after the
JavaScript `lines.pop()`. -/
def withoutLast : List (List Char) → List (List Char)
  | [] => []
  | [_] => []
  | a :: b :: t => a :: withoutLast (b :: t)

/-- The last piece of `lines` (or `[]`): the value returned by `lines.pop()`,
which the client keeps as the new buffer seed. -/
def lastD : List (List Char) → List Char
  | [] => []
  | [a] => a
  | _ :: b :: t => lastD (b :: t)

/-- Concatenation of a list of character lists. -/
def listJoin : List (List Char) → List Char
  | [] => []
  | l :: ls => l ++ listJoin ls

/-! ### The JSON line grammar produced by the relay

The relay writes `JSON.stringify(chunk) + '\n'` for
`chunk = \x7b type: "content_block_delta", delta: \x7b type: "text_delta", text \x7d \x7d`.
`JSON.stringify` emits the object with the fields in this fixed order and
escapes the text with `\"`, `\\`, `\n`, `\r`, `\t`, `\b`, `\f`, and
`\u00XX` for the remaining control characters.  The client runs
`JSON.parse` on each line and then reads `json.type` / `json.delta?.text`;
`parseDeltaLineChars` below models that composite on lines of the relay's
grammar, returning the text field when the line has the delta shape. -/

/-- Lowercase hexadecimal digits, as emitted by `JSON.stringify`. -/
def hexDigits : List Char := ("0123456789abcdef").data

/-- The hexadecimal digit character for `k < 16`. -/
def hexDigitChar (k : Nat) : Char := hexDigits.getD k '0'

/-- The `\u00XX` escape `JSON.stringify` emits for a control character with
code point `n < 32`. -/
def lowCodeEscape (n : Nat) : List Char :=
  '\\' :: 'u' :: '0' :: '0' :: hexDigitChar (n / 16) :: hexDigitChar (n % 16) :: []

/-- Numeric value of a hexadecimal digit character, as accepted by
`JSON.parse` in `\uXXXX` escapes. -/
def hexVal (c : Char) : Option Nat :=
  if '0' ≤ c ∧ c ≤ '9' then some (c.toNat - '0'.toNat)
  else if 'a' ≤ c ∧ c ≤ 'f' then some (c.toNat - 'a'.toNat + 10)
  else if 'A' ≤ c ∧ c ≤ 'F' then some (c.toNat - 'A'.toNat + 10)
  else none

/-- The escape sequence `JSON.stringify` emits for one character of a string
value. -/
def escapeChar (c : Char) : List Char :=
  if c = '"' then ['\\', '"']
  else if c = '\\' then ['\\', '\\']
  else if c = '\n' then ['\\', 'n']
  else if c = '\r' then ['\\', 'r']
  else if c = '\t' then ['\\', 't']
  else if c = '\x08' then ['\\', 'b']
  else if c = '\x0c' then ['\\', 'f']
  else if c.toNat < 32 then lowCodeEscape c.toNat
  else [c]

/-- `JSON.stringify` escaping of a whole string value. -/
def escapeChars : List Char → List Char
  | [] => []
  | c :: t => escapeChar c ++ escapeChars t

/-- Prepends a decoded character to the pending result of a string-body
parse. -/
def consBody (c : Char) : Option (List Char × List Char) → Option (List Char × List Char)
  | some (s, r) => some (c :: s, r)
  | none => none

/-- Model of `JSON.parse`'s string-value scanner: reads characters and escape
sequences up to the closing quote, returning the decoded content and the
remaining input. -/
def parseJsonStringBody : List Char → Option (List Char × List Char)
  | [] => none
  | c :: rest =>
    if c = '"' then some ([], rest)
    else if c = '\\' then
      match rest with
      | [] => none
      | e :: rest1 =>
        if e = '"' then consBody '"' (parseJsonStringBody rest1)
        else if e = '\\' then consBody '\\' (parseJsonStringBody rest1)
        else if e = '/' then consBody '/' (parseJsonStringBody rest1)
        else if e = 'n' then consBody '\n' (parseJsonStringBody rest1)
        else if e = 'r' then consBody '\r' (parseJsonStringBody rest1)
        else if e = 't' then consBody '\t' (parseJsonStringBody rest1)
        else if e = 'b' then consBody '\x08' (parseJsonStringBody rest1)
        else if e = 'f' then consBody '\x0c' (parseJsonStringBody rest1)
        else if e = 'u' then
          match rest1 with
          | h1 :: h2 :: h3 :: h4 :: rest2 =>
            match hexVal h1, hexVal h2, hexVal h3, hexVal h4 with
            | some a, some b, some c2, some d =>
              consBody (Char.ofNat (((a * 16 + b) * 16 + c2) * 16 + d))
                (parseJsonStringBody rest2)
            | _, _, _, _ => none
          | _ => none
        else none
    else consBody c (parseJsonStringBody rest)

/-- The serialized object up to and including the opening quote of the
`text` field. -/
def jsonOpenChars : List Char :=
  ("\x7b\"type\":\"content_block_delta\",\"delta\":\x7b\"type\":\"text_delta\",\"text\":\"").data

/-- The serialized object after the closing quote of the `text` field. -/
def jsonEndChars : List Char := ("\x7d\x7d").data

/-- Model of `JSON.stringify` on the relay's delta record: one line of the
outgoing stream (without the trailing newline). -/
def encodeDeltaLineChars (t : List Char) : List Char :=
  jsonOpenChars ++ escapeChars t ++ ('"' :: jsonEndChars)

/-- Model of `JSON.parse(line)` followed by the client's checks
`json.type === 'content_block_delta' && json.delta?.text !== undefined`,
specialised to the relay's line grammar: returns the decoded `delta.text`
when the line has the delta shape. -/
def parseDeltaLineChars (line : List Char) : Option (List Char) :=
  match dropSeq line jsonOpenChars with
  | none => none
  | some rest =>
    match parseJsonStringBody rest with
    | none => none
    | some (content, rem) => if rem = jsonEndChars then some content else none

/-! ### Data model (`Message`, upstream events, the relay endpoint)

From `src/routes/demo/api.tanchat.ts`. -/

/-- The `role` field of a chat message. -/
inductive Role where
  | user
  | assistant
deriving DecidableEq

/-- The `Message` interface shared by the endpoint and the client. -/
structure Message where
  id : String
  role : Role
  content : String
deriving DecidableEq

/-- A filtered message as sent upstream: `\x7b role, content: content.trim() \x7d`. -/
structure FormattedMessage where
  role : Role
  content : String
deriving DecidableEq

/-- The literal sentinel prefix the endpoint filters out. -/
def sentinelText : String := "Sorry, I encountered an error"

/-- The endpoint's filter predicate:
`msg.content.trim() !== '' && !msg.content.startsWith('Sorry, I encountered an error')`. -/
def keepMessage (m : Message) : Bool :=
  !(isBlank m.content.data) && !(beginsWith m.content.data sentinelText.data)

/-- `messages.filter(...).map(msg => (\x7b role: msg.role, content: msg.content.trim() \x7d))`. -/
def formatMessages (msgs : List Message) : List FormattedMessage :=
  (msgs.filter keepMessage).map (fun m => ⟨m.role, String.mk (trimChars m.content.data)⟩)

/-- The `delta` field of an upstream event: a text delta or anything else. -/
inductive Delta where
  | textDelta (text : String)
  | otherDelta
deriving DecidableEq

/-- An upstream provider event: a `content_block_delta` or any other event
type. -/
inductive UpstreamEvent where
  | contentBlockDelta (delta : Delta)
  | otherEvent
deriving DecidableEq

/-- The `transformedStream` body: for each `content_block_delta` event whose
delta is a `text_delta`, one JSON line terminated by `'\n'`; every other
event contributes nothing. -/
def relayOutputChars : List UpstreamEvent → List Char
  | [] => []
  | e :: rest =>
    (match e with
      | .contentBlockDelta (.textDelta t) => encodeDeltaLineChars t.data ++ ['\n']
      | _ => []) ++ relayOutputChars rest

/-- A JavaScript `Error` value as observed by the catch block: its `name`
and `message`. -/
structure JsError where
  name : String
  message : String
deriving DecidableEq

/-- The user message shown when the upstream rate limit is hit. -/
def rateLimitText : String := "Rate limit exceeded. Please try again in a moment."

/-- The user message shown when the connection to the provider fails. -/
def connectionFailedText : String :=
  "Connection to Anthropic API failed. Please check your internet connection and API key."

/-- The user message shown when provider authentication fails. -/
def authFailedText : String := "Authentication failed. Please check your Anthropic API key."

/-- The catch block's mapping of a thrown `Error` to the user-facing message
and HTTP status code (`errorMessage`, `statusCode`); `statusCode` starts at
500 and is only reassigned in the connection and authentication branches. -/
def classifyError (e : JsError) : String × Nat :=
  if containsSeq e.message.data ("rate limit").data then (rateLimitText, 500)
  else if containsSeq e.message.data ("Connection error").data
      || e.name = "APIConnectionError" then (connectionFailedText, 503)
  else if containsSeq e.message.data ("authentication").data then (authFailedText, 401)
  else (e.message, 500)

/-- The response produced by the POST handler: either a single JSON error
object `\x7b error, details? \x7d` with a status code, or a streamed
`x-ndjson` body. -/
inductive Outcome where
  | errorResponse (status : Nat) (error : String) (details : Option String)
  | streamResponse (body : List Char)
deriving DecidableEq

/-- Whether the handler opened the outgoing stream. -/
def isStreamOutcome : Outcome → Bool
  | .errorResponse _ _ _ => false
  | .streamResponse _ => true

/-- The message of the error thrown when `ANTHROPIC_API_KEY` is unset. -/
def missingKeyText : String :=
  "Missing API key: Please set ANTHROPIC_API_KEY in your environment variables or .env file."

/-- The try block of the POST handler.  `apiKey` models
`process.env.ANTHROPIC_API_KEY` (`none` = unset); `upstream` models
`anthropic.messages.stream` applied to the filtered messages, either
yielding the event sequence or throwing.  Returns the response or the
thrown error.  Note the order: the key is checked before the messages are
filtered. -/
def tryPost (apiKey : Option String)
    (upstream : List FormattedMessage → Except JsError (List UpstreamEvent))
    (messages : List Message) : Except JsError Outcome :=
  match apiKey with
  | none => .error ⟨"Error", missingKeyText⟩
  | some _ =>
    let formatted := formatMessages messages
    if formatted.length = 0 then
      .ok (.errorResponse 400 "No valid messages to send" none)
    else
      match upstream formatted with
      | .error e => .error e
      | .ok events => .ok (.streamResponse (relayOutputChars events))

/-- The whole POST handler: the try block with the catch block wrapped
around it, producing `\x7b error: errorMessage, details: error.name \x7d`
with the classified status code on a thrown error. -/
def handlePost (apiKey : Option String)
    (upstream : List FormattedMessage → Except JsError (List UpstreamEvent))
    (messages : List Message) : Outcome :=
  match tryPost apiKey upstream messages with
  | .ok outcome => outcome
  | .error e => .errorResponse (classifyError e).2 (classifyError e).1 (some e.name)

/-! ### The client stream consumer (`handleSubmit`) -/

/-- The client's mutable state while reading the response body: the
line-reassembly `buffer`, the accumulated `newMessage.content`
(`pendingContent`), and — as an observation history — the list of lines
handed to `JSON.parse`, in order. -/
structure ClientState where
  buffer : List Char
  pendingContent : List Char
  parsed : List (List Char)
deriving DecidableEq

/-- Processing of one complete line: blank lines are skipped without
parsing; otherwise the line goes to `JSON.parse` and, when it is a
`content_block_delta` with truthy (non-empty) `delta.text`, the text is
appended to the pending content. -/
def processLine (st : ClientState) (line : List Char) : ClientState :=
  if isBlank line then st
  else
    let st1 : ClientState := { st with parsed := st.parsed ++ [line] }
    match parseDeltaLineChars line with
    | some t => if t.isEmpty then st1 else { st1 with pendingContent := st1.pendingContent ++ t }
    | none => st1

/-- Processing of one read chunk: append to the buffer, split on `'\n'`,
pop the final (possibly incomplete) piece back into the buffer, and process
every complete line. -/
def processChunk (st : ClientState) (chunk : List Char) : ClientState :=
  let pieces := splitNl (st.buffer ++ chunk)
  (withoutLast pieces).foldl processLine { st with buffer := lastD pieces }

/-- The read loop of `handleSubmit` over the whole sequence of decoded read
chunks, from the initial state (empty buffer, empty content). -/
def runClient (chunks : List (List Char)) : ClientState :=
  chunks.foldl processChunk ⟨[], [], []⟩

/-- End of stream: `setPendingMessage(null)` always; the accumulated
message is appended to the permanent history only when
`newMessage.content.trim()` is truthy.  Returns the new history and the
pending-message state after the turn. -/
def finishStream (history : List Message) (newMessage : Message) :
    List Message × Option Message :=
  if isBlank newMessage.content.data then (history, none)
  else (history ++ [newMessage], none)

/-- The synthetic assistant message content appended to history by the
client's catch block. -/
def errorPlaceholderText : String :=
  "Sorry, I encountered an error. Please check your API key and try again."

/-! ### The input control's submit guard -/

/-- The client state visible to the input control: the textarea value, the
`isLoading` flag, and (as an observation) the number of requests currently
in flight. -/
structure UIState where
  input : String
  isLoading : Bool
  inFlight : Nat
deriving DecidableEq

/-- The submit button's `disabled={!input.trim() || isLoading}`, negated. -/
def submitEnabled (st : UIState) : Bool :=
  !(isBlank st.input.data) && !st.isLoading

/-- `handleSubmit` up to the dispatch of the request: the guard
`if (!input.trim() || isLoading) return`, then `setInput('')`,
`setIsLoading(true)` and one more request in flight. -/
def submitStep (st : UIState) : UIState :=
  if isBlank st.input.data || st.isLoading then st
  else { input := "", isLoading := true, inFlight := st.inFlight + 1 }

/-- The `finally` block of a completing request: `setIsLoading(false)` and
the request leaves flight. -/
def finishStep (st : UIState) : UIState :=
  { st with isLoading := false, inFlight := st.inFlight - 1 }

/-- One step of the input control: submitting the form, a dispatched
request completing, or the user editing the textarea. -/
inductive UIStepR : UIState → UIState → Prop
  | submit (st : UIState) : UIStepR st (submitStep st)
  | finish (st : UIState) : 0 < st.inFlight → UIStepR st (finishStep st)
  | edit (st : UIState) (s : String) : UIStepR st { st with input := s }

/-- States reachable from the initial component state
(`useState('')`, `useState(false)`, nothing in flight). -/
inductive Reach : UIState → Prop
  | init : Reach ⟨"", false, 0⟩
  | step {st st1 : UIState} : Reach st → UIStepR st st1 → Reach st1

/-! ### Lemmas about line splitting and the pop/buffer bookkeeping -/

theorem splitNl_ne_nil : ∀ cs : List Char, splitNl cs ≠ []
  | [] => by simp [splitNl]
  | c :: rest => by by_cases h : c = '\n' <;> simp [splitNl, h]

theorem withoutLast_append (l1 l2 : List (List Char)) (h : l2 ≠ []) :
    withoutLast (l1 ++ l2) = l1 ++ withoutLast l2 := by
  induction l1 with
  | nil => rfl
  | cons a l1 ih =>
    obtain ⟨b, t, hbt⟩ := List.exists_cons_of_ne_nil (show l1 ++ l2 ≠ [] by simp [h])
    rw [List.cons_append, hbt, withoutLast, ← hbt, ih, List.cons_append]

theorem lastD_cons (a : List Char) (l : List (List Char)) (h : l ≠ []) :
    lastD (a :: l) = lastD l := by
  obtain ⟨b, t, hbt⟩ := List.exists_cons_of_ne_nil h
  rw [hbt, lastD]

theorem lastD_append (l1 l2 : List (List Char)) (h : l2 ≠ []) :
    lastD (l1 ++ l2) = lastD l2 := by
  induction l1 with
  | nil => rfl
  | cons a l1 ih =>
    rw [List.cons_append, lastD_cons _ _ (by simp [h]), ih]

theorem splitNl_append (x y : List Char) :
    splitNl (x ++ y) = withoutLast (splitNl x) ++ splitNl (lastD (splitNl x) ++ y) := by
  induction x with
  | nil => simp [splitNl, withoutLast, lastD]
  | cons c x ih =>
    have hr := splitNl_ne_nil x
    obtain ⟨a, r0, har⟩ := List.exists_cons_of_ne_nil hr
    by_cases hc : c = '\n'
    · rw [List.cons_append, splitNl, if_pos hc, ih, splitNl, if_pos hc, har]
      simp only [withoutLast, lastD, List.cons_append]
    · rw [List.cons_append, splitNl, if_neg hc, ih, splitNl, if_neg hc, har]
      cases r0 with
      | nil =>
        simp only [withoutLast, lastD, List.nil_append, List.headD_cons, List.tail_cons]
        rw [List.cons_append, splitNl, if_neg hc]
      | cons b t =>
        simp only [withoutLast, lastD, List.cons_append, List.headD_cons, List.tail_cons]

theorem splitNl_flat (l : List Char) (h : '\n' ∉ l) : splitNl l = [l] := by
  induction l with
  | nil => rfl
  | cons c t ih =>
    have hc : ¬c = '\n' := fun hc => h (hc ▸ List.mem_cons_self c t)
    rw [splitNl, if_neg hc, ih (fun hm => h (List.mem_cons_of_mem c hm))]
    rfl

theorem splitNl_cons_line (l rest : List Char) (h : '\n' ∉ l) :
    splitNl (l ++ '\n' :: rest) = l :: splitNl rest := by
  induction l with
  | nil => rw [List.nil_append, splitNl, if_pos rfl]
  | cons c t ih =>
    have hc : ¬c = '\n' := fun hc => h (hc ▸ List.mem_cons_self c t)
    rw [List.cons_append, splitNl, if_neg hc,
      ih (fun hm => h (List.mem_cons_of_mem c hm))]
    rfl

theorem splitNl_wire (lines : List (List Char)) (q : List Char)
    (hl : ∀ l ∈ lines, '\n' ∉ l) (hq : '\n' ∉ q) :
    splitNl (listJoin (lines.map (· ++ ['\n'])) ++ q) = lines ++ [q] := by
  induction lines with
  | nil => simpa [listJoin] using splitNl_flat q hq
  | cons l ls ih =>
    have h1 : '\n' ∉ l := hl l (List.mem_cons_self l ls)
    have h2 : ∀ x ∈ ls, '\n' ∉ x := fun x hx => hl x (List.mem_cons_of_mem l hx)
    simp only [List.map_cons, listJoin, List.append_assoc, List.singleton_append,
      List.cons_append]
    rw [splitNl_cons_line l _ h1]
    simp only [List.nil_append]
    rw [ih h2]

theorem nl_not_mem_lastD_splitNl : ∀ cs : List Char, '\n' ∉ lastD (splitNl cs)
  | [] => by simp [splitNl, lastD]
  | c :: rest => by
    have hr := splitNl_ne_nil rest
    have ih := nl_not_mem_lastD_splitNl rest
    obtain ⟨a, r0, har⟩ := List.exists_cons_of_ne_nil hr
    by_cases hc : c = '\n'
    · rw [splitNl, if_pos hc, lastD_cons _ _ hr]
      exact ih
    · rw [splitNl, if_neg hc, har]
      cases r0 with
      | nil =>
        simp only [List.headD_cons, List.tail_cons, lastD]
        intro hm
        rcases List.mem_cons.mp hm with h | h
        · exact hc h.symm
        · exact ih (by rw [har]; simpa [lastD] using h)
      | cons b t =>
        simp only [List.headD_cons, List.tail_cons]
        rw [lastD_cons _ _ (by simp)]
        have : lastD (b :: t) = lastD (splitNl rest) := by rw [har, lastD]
        rw [this]
        exact ih

/-! ### State bookkeeping of the client read loop -/

theorem processLine_buffer (st : ClientState) (l : List Char) :
    (processLine st l).buffer = st.buffer := by
  unfold processLine
  by_cases h : isBlank l
  · rw [if_pos h]
  · rw [if_neg h]
    cases hp : parseDeltaLineChars l with
    | none => rfl
    | some t =>
      by_cases ht : t.isEmpty
      · simp [ht]
      · simp [ht]

theorem foldl_processLine_buffer (ls : List (List Char)) (st : ClientState) :
    (ls.foldl processLine st).buffer = st.buffer := by
  induction ls generalizing st with
  | nil => rfl
  | cons l ls ih => rw [List.foldl_cons, ih, processLine_buffer]

theorem processLine_setBuffer (st : ClientState) (b : List Char) (l : List Char) :
    processLine { st with buffer := b } l = { processLine st l with buffer := b } := by
  unfold processLine
  by_cases h : isBlank l
  · rw [if_pos h, if_pos h]
  · rw [if_neg h, if_neg h]
    cases hp : parseDeltaLineChars l with
    | none => rfl
    | some t =>
      by_cases ht : t.isEmpty
      · simp [ht]
      · simp [ht]

theorem foldl_processLine_setBuffer (ls : List (List Char)) (st : ClientState)
    (b : List Char) :
    ls.foldl processLine { st with buffer := b } = { ls.foldl processLine st with buffer := b } := by
  induction ls generalizing st with
  | nil => rfl
  | cons l ls ih => rw [List.foldl_cons, processLine_setBuffer, ih, List.foldl_cons]

theorem processChunk_buffer (st : ClientState) (chunk : List Char) :
    (processChunk st chunk).buffer = lastD (splitNl (st.buffer ++ chunk)) := by
  unfold processChunk
  rw [foldl_processLine_buffer]

theorem processChunk_fuse (st : ClientState) (c d : List Char) :
    processChunk st (c ++ d) = processChunk (processChunk st c) d := by
  have h1 : splitNl (st.buffer ++ (c ++ d))
      = withoutLast (splitNl (st.buffer ++ c))
        ++ splitNl (lastD (splitNl (st.buffer ++ c)) ++ d) := by
    rw [← List.append_assoc, splitNl_append]
  have hSne : splitNl (lastD (splitNl (st.buffer ++ c)) ++ d) ≠ [] := splitNl_ne_nil _
  simp only [processChunk, h1, withoutLast_append _ _ hSne, lastD_append _ _ hSne,
    List.foldl_append, foldl_processLine_setBuffer, foldl_processLine_buffer]

theorem foldl_processChunk_join (chunks : List (List Char)) (st : ClientState)
    (h : '\n' ∉ st.buffer) :
    chunks.foldl processChunk st = processChunk st (listJoin chunks) := by
  induction chunks generalizing st with
  | nil =>
    rw [List.foldl_nil, listJoin, processChunk, List.append_nil, splitNl_flat _ h]
    rfl
  | cons c cs ih =>
    rw [List.foldl_cons, ih (processChunk st c)
      (by rw [processChunk_buffer]; exact nl_not_mem_lastD_splitNl _),
      ← processChunk_fuse, listJoin]

/-! ### Round trip of the relay's JSON line encoding through the client's parse -/

theorem hexVal_hexDigitChar : ∀ k : Nat, k < 16 → hexVal (hexDigitChar k) = some k := by
  decide

theorem parse_escapeChar (c : Char) (t : List Char) :
    parseJsonStringBody (escapeChar c ++ t) = consBody c (parseJsonStringBody t) := by
  unfold escapeChar
  by_cases h1 : c = '"'
  · subst h1; rw [parseJsonStringBody.eq_def]; simp
  · rw [if_neg h1]
    by_cases h2 : c = '\\'
    · subst h2; rw [parseJsonStringBody.eq_def]; simp
    · rw [if_neg h2]
      by_cases h3 : c = '\n'
      · subst h3; rw [parseJsonStringBody.eq_def]; simp
      · rw [if_neg h3]
        by_cases h4 : c = '\r'
        · subst h4; rw [parseJsonStringBody.eq_def]; simp
        · rw [if_neg h4]
          by_cases h5 : c = '\t'
          · subst h5; rw [parseJsonStringBody.eq_def]; simp
          · rw [if_neg h5]
            by_cases h6 : c = '\x08'
            · subst h6; rw [parseJsonStringBody.eq_def]; simp
            · rw [if_neg h6]
              by_cases h7 : c = '\x0c'
              · subst h7; rw [parseJsonStringBody.eq_def]; simp
              · rw [if_neg h7]
                by_cases h8 : c.toNat < 32
                · rw [if_pos h8, lowCodeEscape]
                  have hd0 : hexVal '0' = some 0 := by decide
                  have hd1 : hexVal (hexDigitChar (c.toNat / 16)) = some (c.toNat / 16) :=
                    hexVal_hexDigitChar _ (by omega)
                  have hd2 : hexVal (hexDigitChar (c.toNat % 16)) = some (c.toNat % 16) :=
                    hexVal_hexDigitChar _ (by omega)
                  have hn : ((0 * 16 + 0) * 16 + c.toNat / 16) * 16 + c.toNat % 16 = c.toNat := by
                    omega
                  rw [parseJsonStringBody.eq_def]
                  simp only [List.cons_append, List.nil_append]
                  simp [hd0, hd1, hd2, hn, Char.ofNat_toNat]
                  have hn2 : c.toNat / 16 * 16 + c.toNat % 16 = c.toNat := by omega
                  rw [hn2, Char.ofNat_toNat]
                · rw [if_neg h8, List.cons_append, List.nil_append,
                    parseJsonStringBody.eq_def]
                  simp [h1, h2]

theorem parse_escapeChars (s t : List Char) :
    parseJsonStringBody (escapeChars s ++ '"' :: t) = some (s, t) := by
  induction s with
  | nil =>
    rw [escapeChars, List.nil_append, parseJsonStringBody.eq_def]
    simp
  | cons c s ih =>
    rw [escapeChars, List.append_assoc, parse_escapeChar, ih]
    rfl

theorem dropSeq_nil (cs : List Char) : dropSeq cs [] = some cs := by
  cases cs <;> rfl

theorem dropSeq_self_append : ∀ p cs : List Char, dropSeq (p ++ cs) p = some cs
  | [], cs => by rw [List.nil_append, dropSeq_nil]
  | c :: p, cs => by rw [List.cons_append, dropSeq, if_pos rfl, dropSeq_self_append p cs]

theorem parseDeltaLine_encode (t : List Char) :
    parseDeltaLineChars (encodeDeltaLineChars t) = some t := by
  rw [parseDeltaLineChars, encodeDeltaLineChars, List.append_assoc]
  simp [dropSeq_self_append, parse_escapeChars]

/-! ### The encoded lines contain no newline and are not blank -/

theorem hexDigitChar_ne_nl (k : Nat) : hexDigitChar k ≠ '\n' := by
  unfold hexDigitChar
  by_cases h : k < 16
  · interval_cases k <;> decide
  · rw [List.getD_eq_default _ _ (by
      have h16 : hexDigits.length = 16 := by decide
      omega)]
    decide

theorem nl_not_mem_escapeChar (c : Char) : '\n' ∉ escapeChar c := by
  unfold escapeChar
  split_ifs with h1 h2 h3 h4 h5 h6 h7 h8
  · decide
  · decide
  · decide
  · decide
  · decide
  · decide
  · decide
  · rw [lowCodeEscape]
    intro hm
    simp only [List.mem_cons, List.not_mem_nil, or_false] at hm
    rcases hm with h | h | h | h | h | h <;>
      first
        | exact absurd h.symm (by decide)
        | exact absurd h.symm (hexDigitChar_ne_nl _)
  · intro hm
    simp only [List.mem_cons, List.not_mem_nil, or_false] at hm
    exact h8 (by rw [← hm]; decide)

theorem nl_not_mem_escapeChars (s : List Char) : '\n' ∉ escapeChars s := by
  induction s with
  | nil => simp [escapeChars]
  | cons c s ih =>
    rw [escapeChars]
    intro hm
    rcases List.mem_append.mp hm with h | h
    · exact nl_not_mem_escapeChar c h
    · exact ih h

theorem nl_not_mem_encode (t : List Char) : '\n' ∉ encodeDeltaLineChars t := by
  rw [encodeDeltaLineChars]
  intro hm
  rcases List.mem_append.mp hm with h | h
  · rcases List.mem_append.mp h with h1 | h1
    · exact absurd h1 (by decide)
    · exact nl_not_mem_escapeChars t h1
  · exact absurd h (by decide)

theorem encode_not_blank (t : List Char) : isBlank (encodeDeltaLineChars t) = false := by
  have h : jsonOpenChars.all Char.isWhitespace = false := by decide
  rw [encodeDeltaLineChars, isBlank]
  simp [List.all_append, h]

/-! ### The client fold over a sequence of relay-encoded lines -/

theorem processLine_encoded (st : ClientState) (t : String) :
    processLine st (encodeDeltaLineChars t.data)
      = { st with pendingContent := st.pendingContent ++ t.data,
                  parsed := st.parsed ++ [encodeDeltaLineChars t.data] } := by
  rw [processLine, if_neg (by rw [encode_not_blank t.data]; exact Bool.false_ne_true),
    parseDeltaLine_encode]
  by_cases ht : t.data.isEmpty
  · simp [ht, List.isEmpty_iff.mp ht]
  · simp [ht]

theorem foldl_processLine_encoded (texts : List String) (st : ClientState) :
    (texts.map (fun t => encodeDeltaLineChars t.data)).foldl processLine st
      = { st with
          pendingContent := st.pendingContent ++ listJoin (texts.map String.data),
          parsed := st.parsed ++ texts.map (fun t => encodeDeltaLineChars t.data) } := by
  induction texts generalizing st with
  | nil => simp [listJoin]
  | cons t ts ih =>
    rw [List.map_cons, List.foldl_cons, processLine_encoded, ih]
    simp [listJoin]

/-- The body the relay produces for a pure sequence of text-delta events. -/
theorem relayOutput_textDeltas (texts : List String) :
    relayOutputChars (texts.map (fun t => UpstreamEvent.contentBlockDelta (Delta.textDelta t)))
      = listJoin (texts.map (fun t => encodeDeltaLineChars t.data ++ ['\n'])) := by
  induction texts with
  | nil => rfl
  | cons t ts ih => rw [List.map_cons, relayOutputChars, ih, List.map_cons, listJoin]

/-- Master lemma: running the client read loop over any chunking of a
relay-format body (encoded lines plus a newline-free tail) consumes exactly
the encoded lines, accumulates exactly the concatenated texts, and leaves
the tail in the buffer. -/
theorem runClient_wire (texts : List String) (q : List Char) (chunks : List (List Char))
    (hq : '\n' ∉ q)
    (hw : listJoin chunks
      = listJoin (texts.map (fun t => encodeDeltaLineChars t.data ++ ['\n'])) ++ q) :
    runClient chunks
      = ⟨q, listJoin (texts.map String.data),
          texts.map (fun t => encodeDeltaLineChars t.data)⟩ := by
  have hinit : '\n' ∉ (⟨[], [], []⟩ : ClientState).buffer := by simp
  rw [runClient, foldl_processChunk_join chunks _ hinit, hw, processChunk]
  have hsplit : splitNl ((⟨[], [], []⟩ : ClientState).buffer
      ++ (listJoin (texts.map (fun t => encodeDeltaLineChars t.data ++ ['\n'])) ++ q))
      = texts.map (fun t => encodeDeltaLineChars t.data) ++ [q] := by
    show splitNl ([] ++ _) = _
    rw [List.nil_append]
    have := splitNl_wire (texts.map (fun t => encodeDeltaLineChars t.data)) q
      (by
        intro l hl
        obtain ⟨t, _, rfl⟩ := List.mem_map.mp hl
        exact nl_not_mem_encode t.data) hq
    rw [← this, List.map_map]
    rfl
  rw [hsplit, withoutLast_append _ _ (by simp), lastD_append _ _ (by simp)]
  simp only [withoutLast, lastD, List.append_nil]
  rw [foldl_processLine_encoded]
  simp

/-! ### Trimming, prefixes, and the message filter -/

theorem all_isWhitespace_dropWhile (cs : List Char) :
    (cs.dropWhile Char.isWhitespace).all Char.isWhitespace = cs.all Char.isWhitespace := by
  induction cs with
  | nil => rfl
  | cons c cs ih =>
    rw [List.dropWhile_cons]
    by_cases hw : Char.isWhitespace c
    · rw [if_pos hw, ih, List.all_cons, hw, Bool.true_and]
    · rw [if_neg hw]

theorem trimChars_eq_nil_iff (cs : List Char) : trimChars cs = [] ↔ isBlank cs = true := by
  rw [trimChars, List.reverse_eq_nil_iff, List.dropWhile_eq_nil_iff, isBlank]
  constructor
  · intro h
    rw [← all_isWhitespace_dropWhile, List.all_eq_true]
    intro x hx
    exact h x (List.mem_reverse.mpr hx)
  · intro h x hx
    have h2 : (cs.dropWhile Char.isWhitespace).all Char.isWhitespace = true := by
      rw [all_isWhitespace_dropWhile]; exact h
    exact List.all_eq_true.mp h2 x (List.mem_reverse.mp hx)

theorem beginsWith_iff (cs pat : List Char) : beginsWith cs pat = true ↔ pat <+: cs := by
  induction pat generalizing cs with
  | nil =>
    cases cs <;> simp [beginsWith]
  | cons p ps ih =>
    cases cs with
    | nil => simp [beginsWith]
    | cons c cs =>
      rw [beginsWith, List.cons_prefix_cons, Bool.and_eq_true, decide_eq_true_eq, ih]
      exact and_congr_left (fun _ => eq_comm)

theorem formatMessages_cons (m : Message) (msgs : List Message) :
    formatMessages (m :: msgs)
      = if keepMessage m
        then ⟨m.role, String.mk (trimChars m.content.data)⟩ :: formatMessages msgs
        else formatMessages msgs := by
  rw [formatMessages, List.filter_cons]
  by_cases h : keepMessage m
  · rw [if_pos h, if_pos h, List.map_cons]; rfl
  · rw [if_neg h, if_neg h]; rfl

theorem keep_placeholder_false (m : Message) (h : m.content = errorPlaceholderText) :
    keepMessage m = false := by
  have hb : beginsWith errorPlaceholderText.data sentinelText.data = true := by decide
  rw [keepMessage, h, hb]
  simp

/-! ### Error classification of the POST handler -/

/-- The classification behaviour the specification describes for errors
caught before streaming begins: a message containing "rate limit" yields
the try-again message with the default 500 status; otherwise a connection
failure yields 503; otherwise a message containing "authentication" yields
401; otherwise the raw message is passed through with 500. -/
def classifyMatchesSpec (e : JsError) : Prop :=
  (containsSeq e.message.data ("rate limit").data = true →
    classifyError e = (rateLimitText, 500))
  ∧ (containsSeq e.message.data ("rate limit").data = false →
      (containsSeq e.message.data ("Connection error").data = true
        ∨ e.name = "APIConnectionError") →
      classifyError e = (connectionFailedText, 503))
  ∧ (containsSeq e.message.data ("rate limit").data = false →
      containsSeq e.message.data ("Connection error").data = false →
      e.name ≠ "APIConnectionError" →
      containsSeq e.message.data ("authentication").data = true →
      classifyError e = (authFailedText, 401))
  ∧ (containsSeq e.message.data ("rate limit").data = false →
      containsSeq e.message.data ("Connection error").data = false →
      e.name ≠ "APIConnectionError" →
      containsSeq e.message.data ("authentication").data = false →
      classifyError e = (e.message, 500))

theorem classify_spec (e : JsError) : classifyMatchesSpec e := by
  refine ⟨?_, ?_, ?_, ?_⟩
  · intro h
    rw [classifyError, if_pos h]
  · intro h1 h2
    rw [classifyError, if_neg (by simp [h1]), if_pos]
    rcases h2 with h2 | h2 <;> simp [h2]
  · intro h1 h2 h3 h4
    rw [classifyError, if_neg (by simp [h1]), if_neg (by simp [h2, h3]), if_pos h4]
  · intro h1 h2 h3 h4
    rw [classifyError, if_neg (by simp [h1]), if_neg (by simp [h2, h3]),
      if_neg (by simp [h4])]

/-! ### Reachability invariant of the input control -/

theorem reach_invariant (st : UIState) (h : Reach st) :
    st.inFlight = (if st.isLoading then 1 else 0) := by
  induction h with
  | init => rfl
  | step hr hstep ih =>
    rename_i st0 st1
    cases hstep with
    | submit =>
      rw [submitStep]
      by_cases hg : (isBlank st0.input.data || st0.isLoading) = true
      · simp only [hg, if_true]
        exact ih
      · have hg2 := hg
        simp only [Bool.or_eq_true, not_or, Bool.not_eq_true] at hg2
        simp only [if_neg hg]
        rw [hg2.2] at ih
        simp only [Bool.false_eq_true, if_false] at ih
        simp [ih]
    | finish hpos =>
      rw [finishStep]
      by_cases hl : st0.isLoading = true
      · rw [hl] at ih
        simp only [if_true] at ih
        simp [ih]
      · rw [Bool.not_eq_true] at hl
        rw [hl] at ih
        simp only [Bool.false_eq_true, if_false] at ih
        omega
    | edit s => exact ih

/-! ### The claims -/

/-- Claim C1: for every sequence of upstream text-delta events delivered to
the client as newline-terminated JSON lines (under any chunking of the
response body), the client's reconstructed pending assistant content after
processing the stream equals the concatenation of the events' texts in
arrival order. -/
theorem client_reconstructs_concatenation (texts : List String)
    (chunks : List (List Char))
    (hw : listJoin chunks = relayOutputChars
      (texts.map (fun t => UpstreamEvent.contentBlockDelta (Delta.textDelta t)))) :
    (runClient chunks).pendingContent = listJoin (texts.map String.data) := by
  rw [runClient_wire texts [] chunks (by simp)
    (by rw [hw, relayOutput_textDeltas]; exact (List.append_nil _).symm)]

/-- Witness for C1: the deltas "Hi", " there", "!" delivered with the body
split mid-line into two read chunks reconstruct "Hi there!". -/
theorem client_reconstructs_concatenation_witness :
    (runClient
      [(relayOutputChars (["Hi", " there", "!"].map
          (fun t => UpstreamEvent.contentBlockDelta (Delta.textDelta t)))).take 50,
       (relayOutputChars (["Hi", " there", "!"].map
          (fun t => UpstreamEvent.contentBlockDelta (Delta.textDelta t)))).drop 50]).pendingContent
      = listJoin (["Hi", " there", "!"].map String.data) :=
  client_reconstructs_concatenation ["Hi", " there", "!"] _
    (by simp [listJoin])

/-- Claim C2: for every way of splitting a relay-format response body
(newline-terminated JSON lines, plus a possibly truncated newline-free
tail) into read chunks, the client's line-reassembly buffer hands each
complete line to the JSON parser exactly once and in order, and the
trailing fragment is never parsed — it remains in the buffer at stream
end. -/
theorem client_parses_each_line_once (texts : List String) (q : List Char)
    (chunks : List (List Char)) (hq : '\n' ∉ q)
    (hw : listJoin chunks = relayOutputChars
      (texts.map (fun t => UpstreamEvent.contentBlockDelta (Delta.textDelta t))) ++ q) :
    (runClient chunks).parsed = texts.map (fun t => encodeDeltaLineChars t.data)
    ∧ (runClient chunks).buffer = q := by
  rw [runClient_wire texts q chunks hq (by rw [hw, relayOutput_textDeltas])]
  exact ⟨rfl, rfl⟩

/-- Witness for C2: two lines plus a truncated-line tail, split into two
read chunks mid-line: both complete lines are parsed exactly once and the
tail stays in the buffer. -/
theorem client_parses_each_line_once_witness :
    ((runClient
      [((relayOutputChars (["a", "b"].map
          (fun t => UpstreamEvent.contentBlockDelta (Delta.textDelta t)))
          ++ ('x' :: 'y' :: [])).take 40),
       ((relayOutputChars (["a", "b"].map
          (fun t => UpstreamEvent.contentBlockDelta (Delta.textDelta t)))
          ++ ('x' :: 'y' :: [])).drop 40)]).parsed
        = ["a", "b"].map (fun t => encodeDeltaLineChars t.data))
    ∧ (runClient
      [((relayOutputChars (["a", "b"].map
          (fun t => UpstreamEvent.contentBlockDelta (Delta.textDelta t)))
          ++ ('x' :: 'y' :: [])).take 40),
       ((relayOutputChars (["a", "b"].map
          (fun t => UpstreamEvent.contentBlockDelta (Delta.textDelta t)))
          ++ ('x' :: 'y' :: [])).drop 40)]).buffer = 'x' :: 'y' :: [] :=
  client_parses_each_line_once ["a", "b"] ('x' :: 'y' :: []) _
    (by decide) (by simp [listJoin])

/-- Claim C3: the filtered list the relay sends upstream is exactly the
messages whose trimmed content is non-empty and whose content does not
begin with the sentinel prefix, in their original relative order, each
mapped to role plus trimmed content. -/
theorem filter_exactly_valid_messages (msgs : List Message) :
    formatMessages msgs
      = (msgs.filter keepMessage).map
          (fun m => ⟨m.role, String.mk (trimChars m.content.data)⟩)
    ∧ (msgs.filter keepMessage).Sublist msgs
    ∧ ∀ m : Message, keepMessage m = true
        ↔ (trimChars m.content.data ≠ [] ∧ ¬ sentinelText.data <+: m.content.data) := by
  refine ⟨rfl, List.filter_sublist msgs, fun m => ?_⟩
  rw [keepMessage, Bool.and_eq_true, Bool.not_eq_true', Bool.not_eq_true']
  constructor
  · rintro ⟨h1, h2⟩
    refine ⟨fun ht => ?_, fun hp => ?_⟩
    · rw [trimChars_eq_nil_iff, h1] at ht
      exact Bool.false_ne_true ht
    · rw [← beginsWith_iff, h2] at hp
      exact Bool.false_ne_true hp
  · rintro ⟨h1, h2⟩
    constructor
    · cases hb : isBlank m.content.data with
      | false => rfl
      | true => exact absurd ((trimChars_eq_nil_iff _).mpr hb) h1
    · cases hp : beginsWith m.content.data sentinelText.data with
      | false => rfl
      | true => exact absurd ((beginsWith_iff _ _).mp hp) h2

/-- The HTTP status of a handler outcome (a streamed response is 200). -/
def outcomeStatus : Outcome → Nat
  | .errorResponse s _ _ => s
  | .streamResponse _ => 200

/-- Counterexample to claim C4 as stated: when the message list is empty
after filtering AND the API key is absent, the handler returns the 500
missing-key error, not HTTP 400 — the code checks the key before filtering,
unlike the spec's step ordering. -/
theorem empty_filter_missing_key_counterexample :
    formatMessages [] = []
    ∧ outcomeStatus (handlePost none (fun _ => Except.ok []) []) = 500
    ∧ outcomeStatus (handlePost none (fun _ => Except.ok []) []) ≠ 400 := by
  have hcl : classifyError ⟨"Error", missingKeyText⟩ = (missingKeyText, 500) := by decide
  refine ⟨rfl, ?_, ?_⟩ <;> simp [handlePost, tryPost, hcl, outcomeStatus]

/-- Claim C4 (amended): for every POST whose message list is empty after
filtering and whose provider credential is present, the endpoint returns
HTTP 400 with a single JSON error object and never opens an upstream
stream (the result is the same for every upstream behaviour); when the
credential is absent, the credential check runs first and the endpoint
returns the 500 missing-key error instead, likewise without opening an
upstream stream. -/
theorem empty_filter_yields_400 (k : String)
    (upstream : List FormattedMessage → Except JsError (List UpstreamEvent))
    (msgs : List Message) (h : formatMessages msgs = []) :
    handlePost (some k) upstream msgs
      = Outcome.errorResponse 400 "No valid messages to send" none := by
  rw [handlePost, tryPost]
  simp [h]

/-- Witness for the amended C4: a request whose only message is blank
filters to the empty list and receives the 400 error. -/
theorem empty_filter_yields_400_witness :
    handlePost (some "key") (fun _ => Except.ok [])
        [⟨"1", Role.user, "   "⟩]
      = Outcome.errorResponse 400 "No valid messages to send" none :=
  empty_filter_yields_400 "key" _ _ (by decide)

/-- Claim C5: at stream end the client always clears the pending message,
and appends the accumulated assistant message (as produced by the read
loop) to the permanent history if and only if its content trimmed of
whitespace is non-empty; a blank accumulation leaves history unchanged. -/
theorem stream_end_commit_iff_nonblank (history : List Message) (m : Message) :
    (finishStream history m).2 = none
    ∧ (trimChars m.content.data ≠ [] → (finishStream history m).1 = history ++ [m])
    ∧ (trimChars m.content.data = [] → (finishStream history m).1 = history)
    ∧ ((finishStream history m).1 = history ↔ trimChars m.content.data = []) := by
  by_cases hb : isBlank m.content.data = true
  · have ht : trimChars m.content.data = [] := (trimChars_eq_nil_iff _).mpr hb
    rw [finishStream, if_pos hb]
    exact ⟨rfl, fun h => absurd ht h, fun _ => rfl, by simp [ht]⟩
  · have ht : trimChars m.content.data ≠ [] :=
      fun h => hb ((trimChars_eq_nil_iff _).mp h)
    rw [finishStream, if_neg hb]
    refine ⟨rfl, fun _ => rfl, fun h => absurd h ht, ?_⟩
    constructor
    · intro h
      exfalso
      have hlen := congrArg List.length h
      simp at hlen
    · intro h
      exact absurd h ht

/-- Witness for C5: a non-blank accumulated message is appended; the same
theorem also evaluates the blank side through its iff on a second input. -/
theorem stream_end_commit_iff_nonblank_witness :
    (finishStream [] ⟨"2", Role.assistant, "Hi there!"⟩).1
        = [] ++ [⟨"2", Role.assistant, "Hi there!"⟩]
    ∧ (finishStream [] ⟨"3", Role.assistant, " \t "⟩).1 = [] :=
  ⟨(stream_end_commit_iff_nonblank [] _).2.1 (by decide),
   (stream_end_commit_iff_nonblank [] _).2.2.1 (by decide)⟩

/-- Claim C6: every error raised before streaming begins is returned as a
single JSON object whose error text and status come from the catch block's
classification: "rate limit" in the message gives the try-again text with
the default 500 status; otherwise a connection failure gives 503; otherwise
"authentication" in the message gives 401; otherwise the raw message is
passed through with 500.  `details` carries the error's `name`. -/
theorem prestream_error_classified (k : String) (msgs : List Message) (e : JsError)
    (h : formatMessages msgs ≠ []) :
    handlePost (some k) (fun _ => Except.error e) msgs
      = Outcome.errorResponse (classifyError e).2 (classifyError e).1 (some e.name)
    ∧ classifyMatchesSpec e := by
  refine ⟨?_, classify_spec e⟩
  rw [handlePost, tryPost]
  have hlen : ¬ (formatMessages msgs).length = 0 :=
    fun h0 => h (List.length_eq_zero.mp h0)
  simp [hlen]

/-- Witness for C6: an unclassified upstream error on a valid request is
passed through with status 500 and its name in `details`. -/
theorem prestream_error_classified_witness :
    handlePost (some "k") (fun _ => Except.error ⟨"Error", "boom"⟩)
        [⟨"1", Role.user, "hello"⟩]
      = Outcome.errorResponse 500 "boom" (some "Error")
    ∧ classifyMatchesSpec ⟨"Error", "boom"⟩ :=
  prestream_error_classified "k" [⟨"1", Role.user, "hello"⟩] ⟨"Error", "boom"⟩
    (by decide)

/-- Claim C7: with the API key absent from process configuration, every
request fails before the upstream provider is consulted (the outcome is
identical for every upstream behaviour and never a stream), with a single
JSON error object whose error field begins with "Missing API key:". -/
theorem missing_key_fails_before_upstream
    (upstream : List FormattedMessage → Except JsError (List UpstreamEvent))
    (msgs : List Message) :
    handlePost none upstream msgs
      = Outcome.errorResponse 500 missingKeyText (some "Error")
    ∧ beginsWith missingKeyText.data ("Missing API key:").data = true
    ∧ isStreamOutcome (handlePost none upstream msgs) = false := by
  have hcl : classifyError ⟨"Error", missingKeyText⟩ = (missingKeyText, 500) := by decide
  have h1 : handlePost none upstream msgs
      = Outcome.errorResponse 500 missingKeyText (some "Error") := by
    simp [handlePost, tryPost, hcl]
  exact ⟨h1, by decide, by rw [h1]; rfl⟩

/-- The texts of the `content_block_delta`/`text_delta` events of an
upstream event sequence, in order. -/
def textDeltasOf (events : List UpstreamEvent) : List String :=
  events.filterMap (fun e => match e with
    | .contentBlockDelta (.textDelta t) => some t
    | _ => none)

/-- Claim C8: the relay's outgoing body is exactly one newline-terminated
JSON line per text-delta event, in event order; all other events contribute
no output bytes.  Splitting the body on `'\n'` recovers exactly those
encoded lines (plus the empty final piece after the last terminator). -/
theorem relay_one_line_per_delta (events : List UpstreamEvent) :
    relayOutputChars events
      = listJoin ((textDeltasOf events).map
          (fun t => encodeDeltaLineChars t.data ++ ['\n']))
    ∧ splitNl (relayOutputChars events)
      = (textDeltasOf events).map (fun t => encodeDeltaLineChars t.data) ++ [[]] := by
  have h1 : relayOutputChars events
      = listJoin ((textDeltasOf events).map
          (fun t => encodeDeltaLineChars t.data ++ ['\n'])) := by
    induction events with
    | nil => rfl
    | cons e rest ih =>
      cases e with
      | contentBlockDelta d =>
        cases d with
        | textDelta t => rw [relayOutputChars, ih]; rfl
        | otherDelta =>
          rw [relayOutputChars, ih] <;> first | rfl | (intro t2 h2; simp at h2)
      | otherEvent =>
        rw [relayOutputChars, ih] <;> first | rfl | (intro t2 h2; simp at h2)
  refine ⟨h1, ?_⟩
  rw [h1, ← List.append_nil (listJoin _)]
  have h2 := splitNl_wire ((textDeltasOf events).map (fun t => encodeDeltaLineChars t.data))
    [] (by
      intro l hl
      obtain ⟨t, _, rfl⟩ := List.mem_map.mp hl
      exact nl_not_mem_encode t.data) (by simp)
  rw [← h2, List.map_map]
  rfl

/-- Claim C9: the input control never has two overlapping streams: in every
reachable state at most one request is in flight, and while the loading
flag is set the submit action is a no-op and the submit control is
disabled. -/
theorem at_most_one_request_in_flight (st : UIState) (h : Reach st) :
    st.inFlight ≤ 1
    ∧ (st.isLoading = true → submitStep st = st ∧ submitEnabled st = false) := by
  have hinv := reach_invariant st h
  constructor
  · rw [hinv]
    by_cases hl : st.isLoading = true <;> simp [hl]
  · intro hl
    constructor
    · rw [submitStep, if_pos (by rw [hl, Bool.or_true])]
    · rw [submitEnabled, hl]
      simp

/-- Witness for C9: the initial state is reachable and satisfies the
invariant. -/
theorem at_most_one_request_in_flight_witness :
    (⟨"", false, 0⟩ : UIState).inFlight ≤ 1
    ∧ ((⟨"", false, 0⟩ : UIState).isLoading = true →
        submitStep ⟨"", false, 0⟩ = ⟨"", false, 0⟩
        ∧ submitEnabled ⟨"", false, 0⟩ = false) :=
  at_most_one_request_in_flight ⟨"", false, 0⟩ Reach.init

/-- Claim C10: the client's synthetic error message begins with the exact
sentinel prefix the relay's filter excludes, so dropping every placeholder
from a posted history changes nothing about the filtered list sent
upstream on later turns — placeholders are always filtered out. -/
theorem placeholder_always_filtered :
    beginsWith errorPlaceholderText.data sentinelText.data = true
    ∧ (∀ m : Message, m.content = errorPlaceholderText → keepMessage m = false)
    ∧ ∀ msgs : List Message,
        formatMessages msgs
          = formatMessages (msgs.filter (fun m => m.content ≠ errorPlaceholderText)) := by
  refine ⟨by decide, fun m h => keep_placeholder_false m h, fun msgs => ?_⟩
  induction msgs with
  | nil => rfl
  | cons m rest ih =>
    rw [List.filter_cons]
    by_cases hm : m.content = errorPlaceholderText
    · rw [formatMessages_cons, if_neg (by rw [keep_placeholder_false m hm]; simp),
        if_neg (by simp [hm])]
      exact ih
    · rw [if_pos (by simp [hm]), formatMessages_cons, formatMessages_cons, ih]

/-- Witness for C10: the concrete placeholder message is rejected by the
filter. -/
theorem placeholder_always_filtered_witness :
    keepMessage ⟨"9", Role.assistant, errorPlaceholderText⟩ = false :=
  placeholder_always_filtered.2.1 ⟨"9", Role.assistant, errorPlaceholderText⟩ rfl

end TanChat

